import Mathlib

/-!
Verification of the checkmk GUI view pipeline and utility type definitions.

Shallow embedding of the Python sources:
  * `cmk/gui/views.py` (view data pipeline: filter headers, table join,
    sorting, row limits, command actions),
  * `cmk/gui/wato/pages/pattern_editor.py` (logfile pattern match marking),
  * `cmk/utils/type_defs.py` (`OIDSpec`, `SNMPHostConfig`).

External collaborators (the livestatus client, plugin registries, the HTML
renderer, the regex engine) are taken as parameters of the embedded
functions: the code under verification only combines their outputs.
-/

namespace Checkmk

/-! ### `views.py`: `get_limit` -/

/-- Embeds `get_limit` from `cmk/gui/views.py`.  `limitvar` is the value of the
request variable `"limit"` (the request layer substitutes the default
`"soft"` when the variable is absent); the two booleans are the outcomes of
`config.user.may("general.ignore_soft_limit")` and
`config.user.may("general.ignore_hard_limit")`; the two numbers are
`config.soft_query_limit` and `config.hard_query_limit`.  `none` models the
Python `None` ("no limit"). -/
def get_limit (limitvar : String) (may_ignore_soft_limit may_ignore_hard_limit : Bool)
    (soft_query_limit hard_query_limit : Nat) : Option Nat :=
  if limitvar = "hard" ∧ may_ignore_soft_limit = true then some hard_query_limit
  else if limitvar = "none" ∧ may_ignore_hard_limit = true then none
  else some soft_query_limit

/-! ### `type_defs.py`: `OIDSpec` -/

/-- The constant `OIDSpec.VALID_CHARACTERS = '.' + string.digits`. -/
def VALID_CHARACTERS : List Char :=
  ['.', '0', '1', '2', '3', '4', '5', '6', '7', '8', '9']

/-- The two exception kinds raised by `OIDSpec.validate` / `OIDSpec.__add__`. -/
inductive OIDError
  | typeError
  | valueError
deriving DecidableEq

/-- Embeds `OIDSpec.validate` (the `TypeError` branch for a non-`str`
argument is unreachable here because the embedding is typed; the remaining
checks are the non-emptiness check, the invalid-character check and the
trailing-dot check, in source order).  OID strings are modelled as
`List Char`. -/
def oid_validate (value : List Char) : Except OIDError Unit :=
  if value = [] then .error .valueError
  else if value.filter (fun c => decide (¬ (c ∈ VALID_CHARACTERS))) ≠ [] then .error .valueError
  else if value.getLast? = some '.' then .error .valueError
  else .ok ()

/-- An `OIDSpec` object: `cls` models the runtime class of the object (which
may be a subclass of `OIDSpec`; `__add__` rebuilds the result via
`right.__class__`), `value` models `self._value`. -/
structure OIDSpec where
  cls : String
  value : List Char
deriving DecidableEq

/-- Embeds `OIDSpec.__init__` of class `cls`: validate, then store. -/
def OIDSpec.make (cls : String) (value : List Char) : Except OIDError OIDSpec :=
  match oid_validate value with
  | .ok _ => .ok ⟨cls, value⟩
  | .error e => .error e

/-- Embeds `OIDSpec.__add__`.  The right operand is `none` when the Python
argument is not an `OIDSpec` instance (the `isinstance` guard). -/
def OIDSpec.add (self : OIDSpec) (right : Option OIDSpec) : Except OIDError OIDSpec :=
  match right with
  | none => .error .typeError
  | some r =>
    if ¬ (self.value.head? = some '.') ∨ r.value.head? = some '.' then .error .valueError
    else OIDSpec.make r.cls (self.value ++ '.' :: r.value)

/-- The property `OIDSpec.validate` enforces: non-empty, only dots and
digits, no trailing dot. -/
def OIDValid (value : List Char) : Prop :=
  value ≠ [] ∧ (∀ c ∈ value, c ∈ VALID_CHARACTERS) ∧ value.getLast? ≠ some '.'

/-! ### `type_defs.py`: `SNMPHostConfig` -/

/-- `SNMPCredentials = Union[str, Tuple[str, ...]]`: a community string or a
tuple of SNMPv3 parameters. -/
def SNMPCredentials := Sum String (List String)
deriving DecidableEq

/-- Embeds the `SNMPHostConfig` named tuple (field order and names as in
`type_defs.py`; field value types are Lean counterparts of the Python
annotations). -/
structure SNMPHostConfig where
  is_ipv6_primary : Bool
  hostname : String
  ipaddress : String
  credentials : SNMPCredentials
  port : Int
  is_bulkwalk_host : Bool
  is_snmpv2or3_without_bulkwalk_host : Bool
  bulk_walk_size_of : Int
  timing : List (String × Int)
  oid_range_limits : List Int
  snmpv3_contexts : List String
  character_encoding : Option String
  is_usewalk_host : Bool
  is_inline_snmp_host : Bool
  record_stats : Bool
deriving DecidableEq

/-- The keyword arguments of `SNMPHostConfig.update`: each field may or may
not be named (`some v` models `field=v` among the `kwargs`). -/
structure SNMPHostConfigUpdate where
  is_ipv6_primary : Option Bool := none
  hostname : Option String := none
  ipaddress : Option String := none
  credentials : Option SNMPCredentials := none
  port : Option Int := none
  is_bulkwalk_host : Option Bool := none
  is_snmpv2or3_without_bulkwalk_host : Option Bool := none
  bulk_walk_size_of : Option Int := none
  timing : Option (List (String × Int)) := none
  oid_range_limits : Option (List Int) := none
  snmpv3_contexts : Option (List String) := none
  character_encoding : Option (Option String) := none
  is_usewalk_host : Option Bool := none
  is_inline_snmp_host : Option Bool := none
  record_stats : Option Bool := none

/-- Embeds `SNMPHostConfig.update`: `cfg = self._asdict(); cfg.update(**kwargs);
return SNMPHostConfig(**cfg)` — each named field takes the given value, every
other field is copied from `self`. -/
def SNMPHostConfig.update (self : SNMPHostConfig) (kwargs : SNMPHostConfigUpdate) :
    SNMPHostConfig where
  is_ipv6_primary := kwargs.is_ipv6_primary.getD self.is_ipv6_primary
  hostname := kwargs.hostname.getD self.hostname
  ipaddress := kwargs.ipaddress.getD self.ipaddress
  credentials := kwargs.credentials.getD self.credentials
  port := kwargs.port.getD self.port
  is_bulkwalk_host := kwargs.is_bulkwalk_host.getD self.is_bulkwalk_host
  is_snmpv2or3_without_bulkwalk_host :=
    kwargs.is_snmpv2or3_without_bulkwalk_host.getD self.is_snmpv2or3_without_bulkwalk_host
  bulk_walk_size_of := kwargs.bulk_walk_size_of.getD self.bulk_walk_size_of
  timing := kwargs.timing.getD self.timing
  oid_range_limits := kwargs.oid_range_limits.getD self.oid_range_limits
  snmpv3_contexts := kwargs.snmpv3_contexts.getD self.snmpv3_contexts
  character_encoding := kwargs.character_encoding.getD self.character_encoding
  is_usewalk_host := kwargs.is_usewalk_host.getD self.is_usewalk_host
  is_inline_snmp_host := kwargs.is_inline_snmp_host.getD self.is_inline_snmp_host
  record_stats := kwargs.record_stats.getD self.record_stats

/-- The all-`none` keyword record (no field named). -/
def SNMPHostConfigUpdate.empty : SNMPHostConfigUpdate := {}

/-! ### `views.py`: `_sort_data`

A sorter entry as produced by `View._get_sorter_entries`: the plugin's
comparator `entry.sorter.cmp`, the `negate` flag, and the optional
`join_key`.  Rows are abstract; the lookup `row["JOIN"].get(join_key)` is
modelled by the parameter `joinOf`. -/

structure SorterEntry (Row : Type) where
  cmp : Row → Row → Int
  negate : Bool
  join_key : Option String

/-- Embeds the inner function `safe_compare` of `_sort_data`: handles join
rows that are missing (`None`) for one or both of the compared rows and only
invokes `compfunc` on two present rows. -/
def safe_compare {Row : Type} (compfunc : Row → Row → Int) :
    Option Row → Option Row → Int
  | none, none => 0
  | none, some _ => -1
  | some _, none => 1
  | some row1, some row2 => compfunc row1 row2

/-- One entry's contribution inside `multisort`: the comparator result (via
`safe_compare` on the join rows when `join_key` is set), multiplied by
`-1` when the entry's `negate` flag is set. -/
def entry_compare {Row : Type} (joinOf : Row → String → Option Row)
    (entry : SorterEntry Row) (e1 e2 : Row) : Int :=
  let neg : Int := if entry.negate then -1 else 1
  match entry.join_key with
  | some join_key => neg * safe_compare entry.cmp (joinOf e1 join_key) (joinOf e2 join_key)
  | none => neg * entry.cmp e1 e2

/-- Embeds the inner function `multisort` of `_sort_data`: evaluate the
entries in list order, the first non-zero (negated) comparator result
decides; all zero means equal. -/
def multisort {Row : Type} (joinOf : Row → String → Option Row)
    (sorters : List (SorterEntry Row)) (e1 e2 : Row) : Int :=
  match sorters with
  | [] => 0
  | entry :: rest =>
    let c := entry_compare joinOf entry e1 e2
    if c ≠ 0 then c else multisort joinOf rest e1 e2

/-- Embeds `_sort_data`: with no sorters the data is returned unchanged;
otherwise `data.sort(key=functools.cmp_to_key(multisort))`, i.e. the stable
sort of `data` under the comparator `multisort`, here realised by the stable
`List.mergeSort` with the ordering test `multisort e1 e2 ≤ 0`. -/
def _sort_data {Row : Type} (joinOf : Row → String → Option Row)
    (data : List Row) (sorters : List (SorterEntry Row)) : List Row :=
  match sorters with
  | [] => data
  | _ :: _ => data.mergeSort (fun e1 e2 => decide (multisort joinOf sorters e1 e2 ≤ 0))

/-- A well-behaved integer comparator (what `cmp_to_key` expects of the
sorter plugins): swapping the arguments flips the sign, and the induced
relation `cmp a b ≤ 0` is transitive. -/
def LawfulCmp {Row : Type} (c : Row → Row → Int) : Prop :=
  (∀ a b, c a b ≤ 0 ↔ 0 ≤ c b a) ∧ (∀ a b d, c a b ≤ 0 → c b d ≤ 0 → c a d ≤ 0)

/-! ### `views.py`: filter headers and the `show_view` row pipeline -/

/-- `MKUserError`, modelled by its message. -/
def MKUserError := String

/-- A GUI filter as `show_view` uses it: the outcome of
`filt.validate_value(filt.value())` (which may raise `MKUserError`), the
outcome of `filt.filter(ident)` (a livestatus header string, or a raised
`MKUserError`), and the non-livestatus row filter `filt.filter_table`. -/
structure ViewFilter (Row : Type) where
  validate_value : Except MKUserError Unit
  filter : Except MKUserError String
  filter_table : List Row → List Row

/-- Embeds `get_livestatus_filter_headers`: for each active filter, validate
its current value and generate its header; on `MKUserError` from either step
the filter is skipped (`continue`), otherwise its header is appended. -/
def get_livestatus_filter_headers {Row : Type}
    (all_active_filters : List (ViewFilter Row)) : String :=
  all_active_filters.foldl
    (fun filterheaders filt =>
      match filt.validate_value with
      | .error _ => filterheaders
      | .ok _ =>
        match filt.filter with
        | .error _ => filterheaders
        | .ok header => filterheaders ++ header)
    ""

/-- The headers used for the view's data query in `show_view`:
`filterheaders + view.spec.get("add_headers", "")`. -/
def view_query_headers {Row : Type} (all_active_filters : List (ViewFilter Row))
    (add_headers : String) : String :=
  get_livestatus_filter_headers all_active_filters ++ add_headers

/-- The header a filter contributes: `some h` when validation passes and
header generation returns `h`, `none` when either raises `MKUserError`. -/
def good_header {Row : Type} (filt : ViewFilter Row) : Option String :=
  match filt.validate_value with
  | .error _ => none
  | .ok _ =>
    match filt.filter with
    | .error _ => none
    | .ok header => some header

/-- The non-livestatus filtering step of `show_view`: apply every active
filter's `filter_table` in list order. -/
def apply_filter_table {Row : Type} (all_active_filters : List (ViewFilter Row))
    (rows : List Row) : List Row :=
  all_active_filters.foldl (fun rows filt => filt.filter_table rows) rows

/-- The row pipeline of `show_view`, in source order: in `only_count` mode
the sorter list is emptied; the queried rows get their `JOIN` column
assigned (`_do_table_join`, here a per-row assignment `join_assign`) when
the view has join cells; `_sort_data` sorts; `unfiltered_amount_of_rows` is
taken; the `filter_table` fold runs; in `only_count` mode the count of the
remaining rows is returned, otherwise the rows and the unfiltered count go
to the renderer.  (Per-row decoration steps that never change the row count
— inventory and SLA data loading — are omitted.)  Result:
`(unfiltered_amount_of_rows, rendered rows, only_count result)`. -/
def show_view_process {Row : Type} (joinOf : Row → String → Option Row)
    (join_assign : Row → Row) (has_join_cells : Bool)
    (sorters : List (SorterEntry Row)) (all_active_filters : List (ViewFilter Row))
    (only_count : Bool) (query_rows : List Row) :
    Nat × List Row × Option Nat :=
  let sorters := if only_count then [] else sorters
  let rows := if has_join_cells then query_rows.map join_assign else query_rows
  let rows := _sort_data joinOf rows sorters
  let unfiltered_amount_of_rows := rows.length
  let rows := apply_filter_table all_active_filters rows
  (unfiltered_amount_of_rows, rows, if only_count then some rows.length else none)

/-! ### `views.py`: `core_command` / `do_actions` -/

/-- One command produced by a command plugin's `action` as `core_command`
returns it: either a plain command string, or a `(site, command)` tuple
carrying its own site (e.g. BI commands). -/
inductive CommandEntry
  | plain (command : String)
  | sited (site : Option String) (command : String)
deriving DecidableEq

/-- An action row as `do_actions` consumes it: `row.get("site")` (missing
for BI aggregation rows) plus an abstract row identity. -/
structure ActionRow where
  site : Option String
  ident : Nat
deriving DecidableEq

/-- The effective `(site, command)` pair an entry executes for a row: the
entry's own site for tuple entries, the row's site otherwise. -/
def entry_pair (row : ActionRow) : CommandEntry → Option String × String
  | .plain command => (row.site, command)
  | .sited s command => (s, command)

/-- The inner loop of `do_actions` for one row: each command entry is
skipped when the pair `(row.get("site"), command_entry)` is already in
`already_executed`; otherwise it is executed — with the site replaced by the
entry's own site for tuple entries — and `(site, command_entry)` with the
replaced site is recorded.  State: `(already_executed, executed trace)`. -/
def execute_row_commands (row : ActionRow) (core_commands : List CommandEntry)
    (st : List (Option String × CommandEntry) × List (Option String × String)) :
    List (Option String × CommandEntry) × List (Option String × String) :=
  core_commands.foldl
    (fun st command_entry =>
      if (row.site, command_entry) ∈ st.1 then st
      else
        match command_entry with
        | .sited s command => (st.1 ++ [(s, command_entry)], st.2 ++ [(s, command)])
        | .plain command =>
          (st.1 ++ [(row.site, command_entry)], st.2 ++ [(row.site, command)]))
    st

/-- The row loop of `do_actions` (`for nr, row in enumerate(action_rows)`);
`core_command_of nr row` is the command list that
`core_command(what, row, nr, len(action_rows))` returns. -/
def action_rows_loop (core_command_of : Nat → ActionRow → List CommandEntry) :
    Nat → List ActionRow →
    List (Option String × CommandEntry) × List (Option String × String) →
    List (Option String × CommandEntry) × List (Option String × String)
  | _, [], st => st
  | nr, row :: rest, st =>
    action_rows_loop core_command_of (nr + 1) rest
      (execute_row_commands row (core_command_of nr row) st)

/-- Embeds `do_actions`: the `general.act` permission check, the empty-row
check and the confirmation dialog each abort with `False` and no execution;
otherwise the row loop runs and `True` is returned.  The executor is
modelled by the trace of executed `(site, command)` pairs in order. -/
def do_actions (may_act : Bool) (action_rows : List ActionRow) (confirmed : Bool)
    (core_command_of : Nat → ActionRow → List CommandEntry) :
    Bool × List (Option String × String) :=
  if ¬ may_act then (false, [])
  else if action_rows = [] then (false, [])
  else if ¬ confirmed then (false, [])
  else (true, (action_rows_loop core_command_of 0 action_rows ([], [])).2)

/-- The `(site, command)` pairs a run would produce without any
deduplication: every row in order, every command entry with its effective
site. -/
def produced_pairs (core_command_of : Nat → ActionRow → List CommandEntry) :
    Nat → List ActionRow → List (Option String × String)
  | _, [] => []
  | nr, row :: rest =>
    (core_command_of nr row).map (entry_pair row) ++
      produced_pairs core_command_of (nr + 1) rest

/-! ### `pattern_editor.py`: `ModePatternEditor._show_patterns` -/

/-- One logwatch pattern `(state, pattern, comment)`. -/
structure LogwatchPattern where
  state : Nat
  pattern : String
  comment : String

/-- One logwatch rule as the pattern editor displays it: whether
`rule.matches_host_and_item(...)` holds for the given host/item (`True` for
every rule when no hostname is given), and its pattern list (for a dict
value, its `"reclassify_patterns"` entry). -/
structure LogwatchRule where
  rule_matches : Bool
  patterns : List LogwatchPattern

/-- The match icon/class shown for one pattern row: `first` ("this pattern
matches first and defines the state"), `subsequent` ("matches but another
matched first"), `nomatch` (no match, or rule conditions do not match). -/
inductive MatchMark
  | first
  | subsequent
  | nomatch
deriving DecidableEq

/-- The body of one rule's pattern loop in `_show_patterns`: `re_search p`
models `re.search(p, self._match_txt) is not None`; the state is
(`already_matched`, marks so far). -/
def mark_pattern_step (re_search : String → Bool) (rule : LogwatchRule)
    (st : Bool × List MatchMark) (p : LogwatchPattern) : Bool × List MatchMark :=
  if rule.rule_matches = true ∧ re_search p.pattern = true then
    if st.1 = false then (true, st.2 ++ [MatchMark.first])
    else (st.1, st.2 ++ [MatchMark.subsequent])
  else (st.1, st.2 ++ [MatchMark.nomatch])

/-- One rule's pattern loop in `_show_patterns`: threads `already_matched`
and collects the marks in pattern order. -/
def mark_rule (re_search : String → Bool) (rule : LogwatchRule)
    (already_matched : Bool) : Bool × List MatchMark :=
  rule.patterns.foldl (mark_pattern_step re_search rule) (already_matched, [])

/-- The body of the rule loop of `_show_patterns`. -/
def show_patterns_step (re_search : String → Bool)
    (st : Bool × List (List MatchMark)) (rule : LogwatchRule) :
    Bool × List (List MatchMark) :=
  ((mark_rule re_search rule st.1).1, st.2 ++ [(mark_rule re_search rule st.1).2])

/-- Embeds the marking logic of `ModePatternEditor._show_patterns`: loop all
rules in ruleset order, threading `already_matched` across rules; returns
the marks per rule, per pattern, in display order. -/
def show_patterns (re_search : String → Bool) (rules : List LogwatchRule) :
    List (List MatchMark) :=
  (rules.foldl (show_patterns_step re_search) (false, ([] : List (List MatchMark)))).2

/-- Flattened match conditions in display order: for each rule, for each of
its patterns, whether the rule matches the host/item and the pattern's
regular expression matches the text. -/
def match_conds (re_search : String → Bool) (rules : List LogwatchRule) : List Bool :=
  rules.flatMap (fun rule =>
    rule.patterns.map (fun p => rule.rule_matches && re_search p.pattern))

/-- The marking of a flat condition list with an incoming `already_matched`
flag: the first true condition (with the flag unset) is `first`, later true
conditions are `subsequent`, false conditions are `nomatch`. -/
def mark_flat : Bool → List Bool → List MatchMark
  | _, [] => []
  | am, c :: rest =>
    if c then
      if am = false then MatchMark.first :: mark_flat true rest
      else MatchMark.subsequent :: mark_flat am rest
    else MatchMark.nomatch :: mark_flat am rest

/-! ### `views.py`: `_do_table_join` -/

/-- A slave row returned by the join query: its `site` column, its value in
the view datasource's join master column, its value in the slave
datasource's join key column, and the remaining queried columns as an
abstract payload. -/
structure LSRow where
  site : String
  master_value : String
  slave_value : String
  payload : Nat
deriving DecidableEq

/-- A master row of the view (the fields `_do_table_join` reads). -/
structure MasterRow where
  site : String
  master_value : String
  payload : Nat
deriving DecidableEq

/-- The join master key of a slave row:
`(row["site"], row[join_master_column])`. -/
def keyOf (row : LSRow) : String × String := (row.site, row.master_value)

/-- Python dict lookup on an association list with unique keys. -/
def dget {κ α : Type} [DecidableEq κ] : List (κ × α) → κ → Option α
  | [], _ => none
  | (k, v) :: rest, key => if k = key then some v else dget rest key

/-- Python dict assignment `d[key] = v`: replaces the value in place when
the key is present, appends the binding otherwise. -/
def dinsert {κ α : Type} [DecidableEq κ] (m : List (κ × α)) (key : κ) (v : α) :
    List (κ × α) :=
  if key ∈ m.map Prod.fst then m.map (fun p => if p.1 = key then (p.1, v) else p)
  else m ++ [(key, v)]

/-- In-place update of the value stored under `key`
(`current_entry[...] = row` through the alias into `per_master_entry`). -/
def dmodify {κ α : Type} [DecidableEq κ] (m : List (κ × α)) (key : κ) (f : α → α) :
    List (κ × α) :=
  m.map (fun p => if p.1 = key then (p.1, f p.2) else p)

/-- The grouping loop of `_do_table_join` building `per_master_entry`: for
each slave row in query order, a changed master key installs a fresh dict
for that key (replacing whatever an earlier non-adjacent run of the same key
stored there) and puts the row into it; a repeated master key updates the
current dict in place through the `current_entry` alias. -/
def build_per_master_entry :
    List LSRow → Option (String × String) →
    List ((String × String) × List (String × LSRow)) →
    List ((String × String) × List (String × LSRow))
  | [], _, per_master_entry => per_master_entry
  | row :: rest, current_key, per_master_entry =>
    if some (keyOf row) = current_key then
      build_per_master_entry rest current_key
        (dmodify per_master_entry (keyOf row)
          (fun current_entry => dinsert current_entry row.slave_value row))
    else
      build_per_master_entry rest (some (keyOf row))
        (dinsert per_master_entry (keyOf row) [(row.slave_value, row)])

/-- Embeds `_do_table_join`: build `per_master_entry` from the rows the join
query returned, then attach to every master row the entry for its
`(site, master column)` key — or an empty dict — as its `"JOIN"` value.
The result pairs each master row with its `"JOIN"` dict. -/
def _do_table_join (master_rows : List MasterRow) (query_rows : List LSRow) :
    List (MasterRow × List (String × LSRow)) :=
  master_rows.map (fun row =>
    (row, (dget (build_per_master_entry query_rows none []) (row.site, row.master_value)).getD []))

/-- The slave rows are grouped by master key: every key occupies a single
contiguous run of the list. -/
inductive GroupedRows : List LSRow → Prop
  | nil : GroupedRows []
  | run (row : LSRow) (run_rows rest : List LSRow) :
      (∀ x ∈ run_rows, keyOf x = keyOf row) →
      (∀ x ∈ rest, keyOf x ≠ keyOf row) →
      GroupedRows rest →
      GroupedRows (row :: run_rows ++ rest)

end Checkmk

namespace Checkmk

/-! ### Theorems for C3 -/

/-- C3: `get_limit` returns the soft query limit, except that it returns the
hard query limit when the request variable `limit` is `"hard"` and the user
may ignore the soft limit, and no limit at all when `limit` is `"none"` and
the user may ignore the hard limit; in particular `"none"` without the
`general.ignore_hard_limit` permission yields the soft limit. -/
theorem get_limit_spec (limitvar : String) (ms mh : Bool) (soft hard : Nat) :
    (limitvar = "hard" → ms = true → get_limit limitvar ms mh soft hard = some hard)
    ∧ (limitvar = "none" → mh = true → get_limit limitvar ms mh soft hard = none)
    ∧ (¬ (limitvar = "hard" ∧ ms = true) → ¬ (limitvar = "none" ∧ mh = true) →
        get_limit limitvar ms mh soft hard = some soft)
    ∧ (limitvar = "none" → mh = false → get_limit limitvar ms mh soft hard = some soft) := by
  refine ⟨fun h1 h2 => ?_, fun h1 h2 => ?_, fun h1 h2 => ?_, fun h1 h2 => ?_⟩
  · simp [get_limit, h1, h2]
  · have : ¬ ((("none" : String) = "hard") ∧ ms = true) := by simp
    simp [get_limit, h1, h2, this]
  · simp only [get_limit, if_neg h1, if_neg h2]
  · have hne : ¬ ((("none" : String) = "hard") ∧ ms = true) := by simp
    have hne2 : ¬ ((("none" : String) = "none") ∧ mh = true) := by simp [h2]
    simp [get_limit, h1, hne, hne2, h2]

/-- Witness for C3 at a concrete input: a request of `"none"` by a user
without the `general.ignore_hard_limit` permission yields the soft limit. -/
theorem get_limit_spec_witness :
    get_limit "none" false false 100 1000 = some 100 :=
  (get_limit_spec "none" false false 100 1000).2.2.2 rfl rfl

/-! ### Theorems for C8 -/

/-- `oid_validate` succeeds exactly on valid OID strings. -/
theorem oid_validate_ok_iff (v : List Char) : oid_validate v = .ok () ↔ OIDValid v := by
  unfold oid_validate OIDValid
  by_cases h1 : v = []
  · simp [h1]
  · by_cases h2 : v.filter (fun c => decide (¬ (c ∈ VALID_CHARACTERS))) = []
    · rw [List.filter_eq_nil_iff] at h2
      simp only [decide_eq_true_eq, not_not] at h2
      by_cases h3 : v.getLast? = some '.'
      · simp [h1, h2, h3]
      · simp [h1, h2, h3]
    · have hex : ∃ c ∈ v, ¬ (c ∈ VALID_CHARACTERS) := by
        by_contra hall
        push_neg at hall
        exact h2 (List.filter_eq_nil_iff.mpr (by simpa using hall))
      rcases hex with ⟨c, hc, hcv⟩
      rw [if_neg h1, if_pos h2]
      constructor
      · intro h
        exact absurd h (by simp)
      · intro h
        exact absurd (h.2.1 c hc) hcv

/-- The concatenation performed by `OIDSpec.__add__` yields a valid OID
string whenever both operands were validated. -/
theorem oid_valid_append {va vb : List Char} (ha : OIDValid va) (hb : OIDValid vb) :
    OIDValid (va ++ '.' :: vb) := by
  obtain ⟨ha1, ha2, _⟩ := ha
  obtain ⟨hb1, hb2, hb3⟩ := hb
  refine ⟨by simp, ?_, ?_⟩
  · intro c hc
    rcases List.mem_append.mp hc with h | h
    · exact ha2 c h
    · rcases List.mem_cons.mp h with h | h
      · subst h; simp [VALID_CHARACTERS]
      · exact hb2 c h
  · cases hvb : vb.getLast? with
    | none => exact absurd (List.getLast?_eq_none_iff.mp hvb) hb1
    | some x =>
      have hxne : x ≠ '.' := fun h => hb3 (by rw [hvb, h])
      have hsplit : va ++ '.' :: vb = (va ++ ['.']) ++ vb := by simp
      rw [hsplit, List.getLast?_append, hvb, Option.or_some]
      simp [hxne]

/-- C8: concatenation of validated `OIDSpec` values succeeds exactly when the
right operand is an `OIDSpec`, the left value starts with `'.'` and the right
value does not; on success the result carries the right operand's class and
the value `str(a) + "." + str(b)`; a non-`OIDSpec` right operand raises
`TypeError`, a violated dot condition raises `ValueError`, and every
successfully constructed `OIDSpec` holds a valid (non-empty, dots-and-digits,
no trailing dot) value. -/
theorem OIDSpec_add_spec (a b : OIDSpec) (ha : OIDValid a.value) (hb : OIDValid b.value) :
    ((∃ o, a.add (some b) = .ok o) ↔ (a.value.head? = some '.' ∧ b.value.head? ≠ some '.'))
    ∧ (∀ o, a.add (some b) = .ok o → o.cls = b.cls ∧ o.value = a.value ++ '.' :: b.value)
    ∧ (a.add none = .error .typeError)
    ∧ ((¬ (a.value.head? = some '.') ∨ b.value.head? = some '.') →
        a.add (some b) = .error .valueError)
    ∧ (∀ cls v o, OIDSpec.make cls v = .ok o → OIDValid o.value) := by
  have hcat : oid_validate (a.value ++ '.' :: b.value) = .ok () :=
    (oid_validate_ok_iff _).mpr (oid_valid_append ha hb)
  refine ⟨?_, ?_, rfl, ?_, ?_⟩
  · by_cases hcond : ¬ (a.value.head? = some '.') ∨ b.value.head? = some '.'
    · simp only [OIDSpec.add, if_pos hcond]
      constructor
      · rintro ⟨o, ho⟩
        exact absurd ho (by simp)
      · rintro ⟨h1, h2⟩
        rcases hcond with hc | hc
        · exact absurd h1 hc
        · exact absurd hc h2
    · simp only [OIDSpec.add, if_neg hcond, OIDSpec.make, hcat]
      push_neg at hcond
      exact ⟨fun _ => hcond, fun _ => ⟨_, rfl⟩⟩
  · intro o ho
    simp only [OIDSpec.add] at ho
    split at ho
    · exact absurd ho (by simp)
    · simp only [OIDSpec.make, hcat] at ho
      cases ho
      exact ⟨rfl, rfl⟩
  · intro hcond
    simp only [OIDSpec.add, if_pos hcond]
  · intro cls v o ho
    simp only [OIDSpec.make] at ho
    split at ho
    · rename_i val heq
      cases ho
      exact (oid_validate_ok_iff v).mp (by rw [heq])
    · exact absurd ho (by simp)

/-- Witness for C8: `OIDSpec(".1") + OIDBytes("2")` (a subclass value on the
right) succeeds with class `OIDBytes` and value `".1.2"`. -/
theorem OIDSpec_add_spec_witness :
    ∃ o, (OIDSpec.mk "OIDSpec" ['.', '1']).add (some (OIDSpec.mk "OIDBytes" ['2'])) = Except.ok o
      ∧ o.cls = "OIDBytes" ∧ o.value = ['.', '1', '.', '2'] := by
  obtain ⟨o, ho⟩ :=
    (OIDSpec_add_spec (OIDSpec.mk "OIDSpec" ['.', '1']) (OIDSpec.mk "OIDBytes" ['2'])
      (by unfold OIDValid; decide) (by unfold OIDValid; decide)).1.mpr (by decide)
  obtain ⟨h1, h2⟩ :=
    (OIDSpec_add_spec (OIDSpec.mk "OIDSpec" ['.', '1']) (OIDSpec.mk "OIDBytes" ['2'])
      (by unfold OIDValid; decide) (by unfold OIDValid; decide)).2.1 o ho
  exact ⟨o, ho, h1, h2⟩

/-! ### Theorems for C9 -/

/-- C9: `SNMPHostConfig.update` sets exactly the named fields to the given
values, copies every other field from the receiver, and an update naming no
field returns the receiver unchanged (the receiver itself is immutable: the
method builds a fresh tuple from `_asdict()`). -/
theorem SNMPHostConfig_update_spec (c : SNMPHostConfig) (kw : SNMPHostConfigUpdate) :
    (∀ v, kw.is_ipv6_primary = some v → (c.update kw).is_ipv6_primary = v)
    ∧ (kw.is_ipv6_primary = none → (c.update kw).is_ipv6_primary = c.is_ipv6_primary)
    ∧ (∀ v, kw.hostname = some v → (c.update kw).hostname = v)
    ∧ (kw.hostname = none → (c.update kw).hostname = c.hostname)
    ∧ (∀ v, kw.ipaddress = some v → (c.update kw).ipaddress = v)
    ∧ (kw.ipaddress = none → (c.update kw).ipaddress = c.ipaddress)
    ∧ (∀ v, kw.credentials = some v → (c.update kw).credentials = v)
    ∧ (kw.credentials = none → (c.update kw).credentials = c.credentials)
    ∧ (∀ v, kw.port = some v → (c.update kw).port = v)
    ∧ (kw.port = none → (c.update kw).port = c.port)
    ∧ (∀ v, kw.is_bulkwalk_host = some v → (c.update kw).is_bulkwalk_host = v)
    ∧ (kw.is_bulkwalk_host = none → (c.update kw).is_bulkwalk_host = c.is_bulkwalk_host)
    ∧ (∀ v, kw.is_snmpv2or3_without_bulkwalk_host = some v →
        (c.update kw).is_snmpv2or3_without_bulkwalk_host = v)
    ∧ (kw.is_snmpv2or3_without_bulkwalk_host = none →
        (c.update kw).is_snmpv2or3_without_bulkwalk_host = c.is_snmpv2or3_without_bulkwalk_host)
    ∧ (∀ v, kw.bulk_walk_size_of = some v → (c.update kw).bulk_walk_size_of = v)
    ∧ (kw.bulk_walk_size_of = none → (c.update kw).bulk_walk_size_of = c.bulk_walk_size_of)
    ∧ (∀ v, kw.timing = some v → (c.update kw).timing = v)
    ∧ (kw.timing = none → (c.update kw).timing = c.timing)
    ∧ (∀ v, kw.oid_range_limits = some v → (c.update kw).oid_range_limits = v)
    ∧ (kw.oid_range_limits = none → (c.update kw).oid_range_limits = c.oid_range_limits)
    ∧ (∀ v, kw.snmpv3_contexts = some v → (c.update kw).snmpv3_contexts = v)
    ∧ (kw.snmpv3_contexts = none → (c.update kw).snmpv3_contexts = c.snmpv3_contexts)
    ∧ (∀ v, kw.character_encoding = some v → (c.update kw).character_encoding = v)
    ∧ (kw.character_encoding = none → (c.update kw).character_encoding = c.character_encoding)
    ∧ (∀ v, kw.is_usewalk_host = some v → (c.update kw).is_usewalk_host = v)
    ∧ (kw.is_usewalk_host = none → (c.update kw).is_usewalk_host = c.is_usewalk_host)
    ∧ (∀ v, kw.is_inline_snmp_host = some v → (c.update kw).is_inline_snmp_host = v)
    ∧ (kw.is_inline_snmp_host = none → (c.update kw).is_inline_snmp_host = c.is_inline_snmp_host)
    ∧ (∀ v, kw.record_stats = some v → (c.update kw).record_stats = v)
    ∧ (kw.record_stats = none → (c.update kw).record_stats = c.record_stats)
    ∧ (c.update SNMPHostConfigUpdate.empty = c) := by
  refine ⟨fun v h => ?_, fun h => ?_, fun v h => ?_, fun h => ?_, fun v h => ?_, fun h => ?_,
    fun v h => ?_, fun h => ?_, fun v h => ?_, fun h => ?_, fun v h => ?_, fun h => ?_,
    fun v h => ?_, fun h => ?_, fun v h => ?_, fun h => ?_, fun v h => ?_, fun h => ?_,
    fun v h => ?_, fun h => ?_, fun v h => ?_, fun h => ?_, fun v h => ?_, fun h => ?_,
    fun v h => ?_, fun h => ?_, fun v h => ?_, fun h => ?_, fun v h => ?_, fun h => ?_, rfl⟩ <;>
  simp [SNMPHostConfig.update, h]

/-- Witness for C9 at a concrete input: updating only the port of a concrete
config changes the port and keeps the hostname. -/
theorem SNMPHostConfig_update_spec_witness :
    ((SNMPHostConfig.mk false "myhost" "127.0.0.1" (Sum.inl "public") 161 false false 10 [] [] []
        none false false false).update { port := some 1161 }).port = 1161
    ∧ ((SNMPHostConfig.mk false "myhost" "127.0.0.1" (Sum.inl "public") 161 false false 10 [] [] []
        none false false false).update { port := some 1161 }).hostname = "myhost" :=
  ⟨(SNMPHostConfig_update_spec
      (SNMPHostConfig.mk false "myhost" "127.0.0.1" (Sum.inl "public") 161 false false 10 [] [] []
        none false false false) { port := some 1161 }).2.2.2.2.2.2.2.2.1 1161 rfl,
    (SNMPHostConfig_update_spec
      (SNMPHostConfig.mk false "myhost" "127.0.0.1" (Sum.inl "public") 161 false false 10 [] [] []
        none false false false) { port := some 1161 }).2.2.2.1 rfl⟩

end Checkmk


namespace Checkmk

/-! ### Lemmas about lawful comparators (C1, C10) -/

/-- A lawful comparator yields `0` symmetrically. -/
theorem LawfulCmp.zero_symm {Row : Type} {c : Row → Row → Int} (h : LawfulCmp c)
    {a b : Row} (hz : c a b = 0) : c b a = 0 := by
  have h1 := (h.1 a b).mp (by omega)
  have h2 := (h.1 b a).mpr (by omega)
  omega

/-- Strict/non-strict transitivity for a lawful comparator. -/
theorem LawfulCmp.lt_le_trans {Row : Type} {c : Row → Row → Int} (h : LawfulCmp c)
    {a b d : Row} (h1 : c a b < 0) (h2 : c b d ≤ 0) : c a d < 0 := by
  by_contra hcon
  push_neg at hcon
  have hda : c d a ≤ 0 := (h.1 d a).mpr hcon
  have hba : c b a ≤ 0 := h.2 b d a h2 hda
  have : 0 ≤ c a b := (h.1 b a).mp hba
  omega

/-- Non-strict/strict transitivity for a lawful comparator. -/
theorem LawfulCmp.le_lt_trans {Row : Type} {c : Row → Row → Int} (h : LawfulCmp c)
    {a b d : Row} (h1 : c a b ≤ 0) (h2 : c b d < 0) : c a d < 0 := by
  by_contra hcon
  push_neg at hcon
  have hda : c d a ≤ 0 := (h.1 d a).mpr hcon
  have hdb : c d b ≤ 0 := h.2 d a b hda h1
  have : 0 ≤ c b d := (h.1 d b).mp hdb
  omega

/-- Two zero results chain to a zero result for a lawful comparator. -/
theorem LawfulCmp.zero_trans {Row : Type} {c : Row → Row → Int} (h : LawfulCmp c)
    {a b d : Row} (h1 : c a b = 0) (h2 : c b d = 0) : c a d = 0 := by
  have hle : c a d ≤ 0 := h.2 a b d (by omega) (by omega)
  have hba : c b a = 0 := h.zero_symm h1
  have hdb : c d b = 0 := h.zero_symm h2
  have hda : c d a ≤ 0 := h.2 d b a (by omega) (by omega)
  have := (h.1 d a).mp hda
  omega

/-- Negating a lawful comparator keeps it lawful. -/
theorem lawful_neg_cmp {Row : Type} {c : Row → Row → Int} (h : LawfulCmp c) :
    LawfulCmp (fun a b => -c a b) := by
  constructor
  · intro a b
    show -c a b ≤ 0 ↔ 0 ≤ -c b a
    have h1 := h.1 b a
    constructor
    · intro hx
      have : c b a ≤ 0 := h1.mpr (by omega)
      omega
    · intro hx
      have : 0 ≤ c a b := h1.mp (by omega)
      omega
  · intro a b d hab hbd
    have hab' : -c a b ≤ 0 := hab
    have hbd' : -c b d ≤ 0 := hbd
    show -c a d ≤ 0
    have hba : c b a ≤ 0 := (h.1 b a).mpr (by omega)
    have hdb : c d b ≤ 0 := (h.1 d b).mpr (by omega)
    have hda : c d a ≤ 0 := h.2 d b a hdb hba
    have := (h.1 d a).mp hda
    omega

/-- Multiplying a lawful comparator by the `negate` factor keeps it lawful. -/
theorem lawful_scale {Row : Type} {c : Row → Row → Int} (ng : Bool) (h : LawfulCmp c) :
    LawfulCmp (fun a b => (if ng then (-1 : Int) else 1) * c a b) := by
  cases ng
  · simpa using h
  · simp only [if_pos trivial, neg_one_mul]
    exact lawful_neg_cmp h

/-- Precomposing a lawful comparator with a lookup keeps it lawful. -/
theorem lawful_precomp {Row Row' : Type} {c : Row → Row → Int} (f : Row' → Row)
    (h : LawfulCmp c) : LawfulCmp (fun a b => c (f a) (f b)) :=
  ⟨fun a b => h.1 (f a) (f b), fun a b d => h.2 (f a) (f b) (f d)⟩

/-- `safe_compare` of a lawful comparator is lawful on optional rows. -/
theorem lawful_safe_compare {Row : Type} {c : Row → Row → Int} (h : LawfulCmp c) :
    LawfulCmp (safe_compare c) := by
  constructor
  · rintro (_ | a) (_ | b) <;>
      simp only [safe_compare] <;>
      first
        | omega
        | exact h.1 a b
  · rintro (_ | a) (_ | b) (_ | d) <;> intro h1 h2 <;>
      simp only [safe_compare] at h1 h2 ⊢ <;>
      first
        | omega
        | exact h.2 a b d h1 h2

/-- An entry's effective comparator inside `multisort` is lawful whenever the
plugin comparator is. -/
theorem lawful_entry_compare {Row : Type} (joinOf : Row → String → Option Row)
    (entry : SorterEntry Row) (h : LawfulCmp entry.cmp) :
    LawfulCmp (entry_compare joinOf entry) := by
  cases hj : entry.join_key with
  | none =>
    have heq : entry_compare joinOf entry =
        fun a b => (if entry.negate then (-1 : Int) else 1) * entry.cmp a b := by
      funext a b
      simp [entry_compare, hj]
    rw [heq]
    exact lawful_scale entry.negate h
  | some jk =>
    have heq : entry_compare joinOf entry =
        fun a b => (if entry.negate then (-1 : Int) else 1) *
          safe_compare entry.cmp (joinOf a jk) (joinOf b jk) := by
      funext a b
      simp [entry_compare, hj]
    rw [heq]
    exact lawful_scale entry.negate (lawful_precomp (fun r => joinOf r jk) (lawful_safe_compare h))

/-- Unfolding equation of `multisort` on a non-empty sorter list. -/
theorem multisort_cons {Row : Type} (joinOf : Row → String → Option Row)
    (e : SorterEntry Row) (rest : List (SorterEntry Row)) (e1 e2 : Row) :
    multisort joinOf (e :: rest) e1 e2 =
      if entry_compare joinOf e e1 e2 ≠ 0 then entry_compare joinOf e e1 e2
      else multisort joinOf rest e1 e2 := by
  simp only [multisort]

/-- `multisort` over lawful entries is lawful. -/
theorem lawful_multisort {Row : Type} (joinOf : Row → String → Option Row)
    (sorters : List (SorterEntry Row)) (h : ∀ e ∈ sorters, LawfulCmp e.cmp) :
    LawfulCmp (multisort joinOf sorters) := by
  induction sorters with
  | nil => exact ⟨fun a b => by simp [multisort], fun a b d _ _ => by simp [multisort]⟩
  | cons e rest ih =>
    have he : LawfulCmp (entry_compare joinOf e) :=
      lawful_entry_compare joinOf e (h e (List.mem_cons_self e rest))
    have hr : LawfulCmp (multisort joinOf rest) :=
      ih (fun e' he' => h e' (List.mem_cons_of_mem e he'))
    constructor
    · intro a b
      rw [multisort_cons, multisort_cons]
      by_cases hz : entry_compare joinOf e a b = 0
      · have hz2 : entry_compare joinOf e b a = 0 := he.zero_symm hz
        rw [if_neg (not_not_intro hz), if_neg (not_not_intro hz2)]
        exact hr.1 a b
      · have hz2 : entry_compare joinOf e b a ≠ 0 := fun h0 => hz (he.zero_symm h0)
        rw [if_pos hz, if_pos hz2]
        exact he.1 a b
    · intro a b d hab hbd
      rw [multisort_cons] at hab hbd ⊢
      by_cases hz1 : entry_compare joinOf e a b = 0 <;>
        by_cases hz2 : entry_compare joinOf e b d = 0
      · rw [if_neg (not_not_intro hz1)] at hab
        rw [if_neg (not_not_intro hz2)] at hbd
        have hz3 : entry_compare joinOf e a d = 0 := he.zero_trans hz1 hz2
        rw [if_neg (not_not_intro hz3)]
        exact hr.2 a b d hab hbd
      · rw [if_neg (not_not_intro hz1)] at hab
        rw [if_pos hz2] at hbd
        have hlt : entry_compare joinOf e a d < 0 :=
          he.le_lt_trans (le_of_eq hz1) (lt_of_le_of_ne hbd hz2)
        rw [if_pos (by omega)]
        omega
      · rw [if_pos hz1] at hab
        rw [if_neg (not_not_intro hz2)] at hbd
        have hlt : entry_compare joinOf e a d < 0 :=
          he.lt_le_trans (lt_of_le_of_ne hab hz1) (le_of_eq hz2)
        rw [if_pos (by omega)]
        omega
      · rw [if_pos hz1] at hab
        rw [if_pos hz2] at hbd
        have hlt : entry_compare joinOf e a d < 0 :=
          he.lt_le_trans (lt_of_le_of_ne hab hz1) hbd
        rw [if_pos (by omega)]
        omega

/-- `multisort` returns `0` exactly when every entry returns `0`. -/
theorem multisort_eq_zero_iff {Row : Type} (joinOf : Row → String → Option Row)
    (sorters : List (SorterEntry Row)) (e1 e2 : Row) :
    multisort joinOf sorters e1 e2 = 0 ↔
      ∀ e ∈ sorters, entry_compare joinOf e e1 e2 = 0 := by
  induction sorters with
  | nil => simp [multisort]
  | cons e rest ih =>
    rw [multisort_cons]
    by_cases hz : entry_compare joinOf e e1 e2 = 0
    · rw [if_neg (not_not_intro hz), ih]
      simp [hz]
    · rw [if_pos hz]
      constructor
      · intro h0
        exact absurd h0 hz
      · intro hall
        exact absurd (hall e (List.mem_cons_self e rest)) hz


/-! ### Theorems for C1 and C10 -/

/-- C1: `_sort_data` leaves the row list unchanged on an empty sorter list;
on any non-empty sorter list whose plugin comparators are lawful it orders
the rows by the lexicographic combination `multisort` of the entries'
comparators (first non-zero negated result decides): the result is a
permutation of the input, consecutive result rows are ordered by
`multisort`, and two rows for which every entry yields zero keep their
relative order (stability). -/
theorem sort_data_spec {Row : Type} (joinOf : Row → String → Option Row)
    (data : List Row) (sorters : List (SorterEntry Row))
    (h : ∀ e ∈ sorters, LawfulCmp e.cmp) :
    _sort_data joinOf data [] = data
    ∧ (_sort_data joinOf data sorters).Perm data
    ∧ (_sort_data joinOf data sorters).Pairwise
        (fun e1 e2 => multisort joinOf sorters e1 e2 ≤ 0)
    ∧ (∀ a b, List.Sublist [a, b] data →
        (∀ e ∈ sorters, entry_compare joinOf e a b = 0) →
        List.Sublist [a, b] (_sort_data joinOf data sorters)) := by
  have hm := lawful_multisort joinOf sorters h
  have htrans : ∀ a b d : Row, decide (multisort joinOf sorters a b ≤ 0) = true →
      decide (multisort joinOf sorters b d ≤ 0) = true →
      decide (multisort joinOf sorters a d ≤ 0) = true := by
    intro a b d h1 h2
    simp only [decide_eq_true_eq] at h1 h2 ⊢
    exact hm.2 a b d h1 h2
  have htotal : ∀ a b : Row, (decide (multisort joinOf sorters a b ≤ 0)
      || decide (multisort joinOf sorters b a ≤ 0)) = true := by
    intro a b
    by_cases hx : multisort joinOf sorters a b ≤ 0
    · simp [hx]
    · have hy : multisort joinOf sorters b a ≤ 0 := (hm.1 b a).mpr (by omega)
      simp [hy]
  refine ⟨rfl, ?_, ?_, ?_⟩
  · cases sorters with
    | nil => exact List.Perm.refl data
    | cons e rest => exact List.mergeSort_perm data _
  · cases sorters with
    | nil => exact List.pairwise_of_forall (fun a b => by simp [multisort])
    | cons e rest =>
      have hs := List.sorted_mergeSort htrans htotal data
      exact hs.imp (fun hab => of_decide_eq_true hab)
  · intro a b hsub hz
    cases sorters with
    | nil => exact hsub
    | cons e rest =>
      have hz0 : multisort joinOf (e :: rest) a b = 0 :=
        (multisort_eq_zero_iff joinOf (e :: rest) a b).mpr hz
      have hab : decide (multisort joinOf (e :: rest) a b ≤ 0) = true := by
        simp [hz0]
      exact List.pair_sublist_mergeSort htrans htotal hab hsub

/-- Witness for C1 at a concrete input: one lawful ascending comparator on
`Fin 3`, data `[2, 0, 1]`. -/
theorem sort_data_spec_witness :
    (_sort_data (fun (_ : Fin 3) (_ : String) => none)
        [(2 : Fin 3), 0, 1] [⟨fun a b => (a : Int) - (b : Int), false, none⟩]).Perm
      [(2 : Fin 3), 0, 1]
    ∧ (_sort_data (fun (_ : Fin 3) (_ : String) => none)
        [(2 : Fin 3), 0, 1] [⟨fun a b => (a : Int) - (b : Int), false, none⟩]).Pairwise
        (fun e1 e2 => multisort (fun (_ : Fin 3) (_ : String) => none)
          [⟨fun a b => (a : Int) - (b : Int), false, none⟩] e1 e2 ≤ 0) := by
  have hlaw : ∀ e ∈ [(⟨fun a b => (a : Int) - (b : Int), false, none⟩ : SorterEntry (Fin 3))],
      LawfulCmp e.cmp := by
    intro e he
    rw [List.mem_singleton] at he
    subst he
    constructor
    · intro a b
      show (a : Int) - (b : Int) ≤ 0 ↔ 0 ≤ (b : Int) - (a : Int)
      omega
    · intro a b d h1 h2
      have h1' : (a : Int) - (b : Int) ≤ 0 := h1
      have h2' : (b : Int) - (d : Int) ≤ 0 := h2
      show (a : Int) - (d : Int) ≤ 0
      omega
  have h := sort_data_spec (fun (_ : Fin 3) (_ : String) => none)
    [(2 : Fin 3), 0, 1] [⟨fun a b => (a : Int) - (b : Int), false, none⟩] hlaw
  exact ⟨h.2.1, h.2.2.1⟩

/-- C10: under a non-negated join-column sorter entry, a row whose JOIN
mapping lacks the join key orders before (result `-1`) any row that has it,
two rows both lacking it compare equal (result `0`), and `safe_compare`
consults the plugin comparator only when both join rows are present (its
result is independent of the comparator otherwise), so the comparison is
total on rows with missing join data. -/
theorem safe_compare_spec {Row : Type} (joinOf : Row → String → Option Row)
    (cmp : Row → Row → Int) (join_key : String) :
    (∀ e1 e2, joinOf e1 join_key = none → joinOf e2 join_key ≠ none →
      entry_compare joinOf ⟨cmp, false, some join_key⟩ e1 e2 = -1)
    ∧ (∀ e1 e2, joinOf e1 join_key = none → joinOf e2 join_key = none →
      entry_compare joinOf ⟨cmp, false, some join_key⟩ e1 e2 = 0)
    ∧ (∀ (cmp2 : Row → Row → Int) (o1 o2 : Option Row), o1 = none ∨ o2 = none →
      safe_compare cmp o1 o2 = safe_compare cmp2 o1 o2) := by
  refine ⟨?_, ?_, ?_⟩
  · intro e1 e2 h1 h2
    obtain ⟨r, hr⟩ := Option.ne_none_iff_exists'.mp h2
    simp [entry_compare, h1, hr, safe_compare]
  · intro e1 e2 h1 h2
    simp [entry_compare, h1, h2, safe_compare]
  · rintro cmp2 (_ | a) (_ | b) hor
    · rfl
    · rfl
    · rfl
    · rcases hor with h0 | h0 <;> simp_all

/-- Witness for C10 at a concrete input: row `0` has no join row for key
`"svc"`, row `1` has one, and the entry comparison yields `-1`. -/
theorem safe_compare_spec_witness :
    entry_compare (fun (r : Fin 2) (_ : String) => if r = 0 then none else some r)
      ⟨fun _ _ => 0, false, some "svc"⟩ 0 1 = -1 :=
  (safe_compare_spec (fun (r : Fin 2) (_ : String) => if r = 0 then none else some r)
    (fun _ _ => 0) "svc").1 0 1 (by decide) (by decide)


/-! ### Theorems for C4 -/

/-- `String.join` distributes over cons. -/
theorem string_join_cons (a : String) (l : List String) :
    String.join (a :: l) = a ++ String.join l := by
  apply String.ext
  simp

/-- Generalised accumulator form of `get_livestatus_filter_headers`. -/
theorem get_livestatus_filter_headers_go {Row : Type} (l : List (ViewFilter Row)) (s : String) :
    List.foldl
      (fun filterheaders filt =>
        match filt.validate_value with
        | .error _ => filterheaders
        | .ok _ =>
          match filt.filter with
          | .error _ => filterheaders
          | .ok header => filterheaders ++ header)
      s l
    = s ++ String.join (l.filterMap good_header) := by
  induction l generalizing s with
  | nil => simp [String.join]
  | cons f l ih =>
    simp only [List.foldl_cons, List.filterMap_cons]
    cases hv : f.validate_value with
    | error e =>
      simp only [hv, good_header]
      rw [ih]
    | ok u =>
      cases hf : f.filter with
      | error e =>
        simp only [hv, hf, good_header]
        rw [ih]
      | ok header =>
        simp only [hv, hf, good_header]
        rw [ih, string_join_cons, String.append_assoc]

/-- `get_livestatus_filter_headers` concatenates exactly the good headers. -/
theorem get_livestatus_filter_headers_eq {Row : Type} (l : List (ViewFilter Row)) :
    get_livestatus_filter_headers l = String.join (l.filterMap good_header) := by
  rw [get_livestatus_filter_headers, get_livestatus_filter_headers_go]
  exact String.empty_append _

/-- C4: the livestatus header string of the view's data query is the
concatenation, in filter-list order, of the headers of exactly those active
filters whose value validates and whose header generation succeeds, followed
by the view spec's `add_headers`; a filter raising `MKUserError` during
validation or header generation contributes nothing and does not abort the
construction of the remaining headers. -/
theorem view_query_headers_spec {Row : Type} (all_active_filters : List (ViewFilter Row))
    (add_headers : String) :
    (view_query_headers all_active_filters add_headers =
      String.join (all_active_filters.filterMap good_header) ++ add_headers)
    ∧ (∀ (l1 l2 : List (ViewFilter Row)) (bad : ViewFilter Row),
        (∃ e, bad.validate_value = .error e) ∨ (∃ e, bad.filter = .error e) →
        get_livestatus_filter_headers (l1 ++ bad :: l2) =
          get_livestatus_filter_headers (l1 ++ l2)) := by
  constructor
  · rw [view_query_headers, get_livestatus_filter_headers_eq]
  · intro l1 l2 bad hbad
    have hnone : good_header bad = none := by
      rcases hbad with ⟨e, he⟩ | ⟨e, he⟩
      · simp [good_header, he]
      · cases hv : bad.validate_value <;> simp [good_header, hv, he]
    rw [get_livestatus_filter_headers_eq, get_livestatus_filter_headers_eq,
      List.filterMap_append, List.filterMap_append, List.filterMap_cons, hnone]

/-- Witness for C4 at a concrete input: a filter whose validation raises is
skipped and the remaining filters still contribute their headers. -/
theorem view_query_headers_spec_witness :
    get_livestatus_filter_headers
      ([(⟨Except.ok (), Except.ok "Filter: host_name = a\n", id⟩ : ViewFilter Unit)] ++
        (⟨Except.error "invalid value", Except.ok "Filter: unreachable\n", id⟩ : ViewFilter Unit)
          :: [(⟨Except.ok (), Except.ok "Filter: state = 0\n", id⟩ : ViewFilter Unit)]) =
    get_livestatus_filter_headers
      ([(⟨Except.ok (), Except.ok "Filter: host_name = a\n", id⟩ : ViewFilter Unit)] ++
        [(⟨Except.ok (), Except.ok "Filter: state = 0\n", id⟩ : ViewFilter Unit)]) :=
  (view_query_headers_spec ([] : List (ViewFilter Unit)) "").2
    [⟨Except.ok (), Except.ok "Filter: host_name = a\n", id⟩]
    [⟨Except.ok (), Except.ok "Filter: state = 0\n", id⟩]
    ⟨Except.error "invalid value", Except.ok "Filter: unreachable\n", id⟩
    (Or.inl ⟨"invalid value", rfl⟩)

/-! ### Theorems for C5 -/

/-- `_sort_data` preserves the number of rows. -/
theorem sort_data_length {Row : Type} (joinOf : Row → String → Option Row)
    (data : List Row) (sorters : List (SorterEntry Row)) :
    (_sort_data joinOf data sorters).length = data.length := by
  cases sorters with
  | nil => rfl
  | cons e rest => exact List.length_mergeSort data

/-- C5: in the `show_view` pipeline the non-livestatus `filter_table` step
runs only after `_sort_data`: the rendered rows are the `filter_table` fold
applied to the sorted rows; the `unfiltered` count handed to the renderer is
the row count taken before the `filter_table` step (the query row count,
whatever the filters do); and in `only_count` mode the returned value is the
count after the `filter_table` step (with sorting disabled). -/
theorem show_view_process_spec {Row : Type} (joinOf : Row → String → Option Row)
    (join_assign : Row → Row) (has_join_cells : Bool)
    (sorters : List (SorterEntry Row)) (filters : List (ViewFilter Row))
    (only_count : Bool) (query_rows : List Row) :
    (show_view_process joinOf join_assign has_join_cells sorters filters only_count
        query_rows).1 = query_rows.length
    ∧ (only_count = false →
        (show_view_process joinOf join_assign has_join_cells sorters filters only_count
            query_rows).2.1 =
          apply_filter_table filters (_sort_data joinOf
            (if has_join_cells then query_rows.map join_assign else query_rows) sorters))
    ∧ (only_count = true →
        (show_view_process joinOf join_assign has_join_cells sorters filters only_count
            query_rows).2.2 =
          some (apply_filter_table filters
            (if has_join_cells then query_rows.map join_assign else query_rows)).length)
    ∧ (only_count = false →
        (show_view_process joinOf join_assign has_join_cells sorters filters only_count
            query_rows).2.2 = none) := by
  have hlen : ∀ (ss : List (SorterEntry Row)),
      (_sort_data joinOf (if has_join_cells then query_rows.map join_assign else query_rows)
        ss).length = query_rows.length := by
    intro ss
    rw [sort_data_length]
    cases has_join_cells <;> simp
  cases only_count with
  | false =>
    exact ⟨hlen sorters, ⟨fun _ => rfl, ⟨fun hc => Bool.noConfusion hc, fun _ => rfl⟩⟩⟩
  | true =>
    exact ⟨hlen [], ⟨fun hc => Bool.noConfusion hc, ⟨fun _ => rfl, fun hc => Bool.noConfusion hc⟩⟩⟩

/-- Witness for C5 at a concrete input: a filter that removes every row; in
`only_count` mode the unfiltered count is still the query row count while
the returned count is `0`. -/
theorem show_view_process_spec_witness :
    (show_view_process (fun (_ : Fin 2) (_ : String) => none) id false []
        [⟨Except.ok (), Except.ok "", fun _ => []⟩] true [(0 : Fin 2), 1]).1 = 2
    ∧ (show_view_process (fun (_ : Fin 2) (_ : String) => none) id false []
        [⟨Except.ok (), Except.ok "", fun _ => []⟩] true [(0 : Fin 2), 1]).2.2 =
      some (apply_filter_table [⟨Except.ok (), Except.ok "", fun _ => []⟩]
        (if false then ([(0 : Fin 2), 1]).map id else [(0 : Fin 2), 1])).length :=
  ⟨(show_view_process_spec (fun (_ : Fin 2) (_ : String) => none) id false []
      [⟨Except.ok (), Except.ok "", fun _ => []⟩] true [(0 : Fin 2), 1]).1,
    (show_view_process_spec (fun (_ : Fin 2) (_ : String) => none) id false []
      [⟨Except.ok (), Except.ok "", fun _ => []⟩] true [(0 : Fin 2), 1]).2.2.1 rfl⟩


/-! ### Theorems for C6 -/

/-- Invariant of the inner command loop when every entry is a plain command:
the `already_executed` set is the executed trace with its commands wrapped as
plain entries, the trace stays duplicate-free, and afterwards the trace
holds exactly the old pairs plus the row's effective pairs. -/
theorem execute_row_commands_plain (row : ActionRow) (entries : List CommandEntry) :
    (∀ ce ∈ entries, ∃ c, ce = CommandEntry.plain c) →
    ∀ st : List (Option String × CommandEntry) × List (Option String × String),
      st.1 = st.2.map (fun p => (p.1, CommandEntry.plain p.2)) → st.2.Nodup →
      ((execute_row_commands row entries st).1 =
          (execute_row_commands row entries st).2.map (fun p => (p.1, CommandEntry.plain p.2))
        ∧ (execute_row_commands row entries st).2.Nodup
        ∧ (∀ p, p ∈ (execute_row_commands row entries st).2 ↔
            p ∈ st.2 ∨ p ∈ entries.map (entry_pair row))) := by
  induction entries with
  | nil =>
    intro _ st hinv hnd
    refine ⟨hinv, hnd, fun p => ?_⟩
    simp [execute_row_commands]
  | cons ce rest ih =>
    intro hplain st hinv hnd
    obtain ⟨c, rfl⟩ := hplain ce (List.mem_cons_self ce rest)
    have hrest : ∀ ce2 ∈ rest, ∃ c2, ce2 = CommandEntry.plain c2 :=
      fun ce2 h2 => hplain ce2 (List.mem_cons_of_mem _ h2)
    by_cases hmem : (row.site, CommandEntry.plain c) ∈ st.1
    · have hstep : execute_row_commands row (CommandEntry.plain c :: rest) st =
          execute_row_commands row rest st := by
        simp only [execute_row_commands, List.foldl_cons, if_pos hmem]
      rw [hstep]
      have hpair : (row.site, c) ∈ st.2 := by
        rw [hinv] at hmem
        rcases List.mem_map.mp hmem with ⟨⟨ps, pc⟩, hp, heq⟩
        simp only [Prod.mk.injEq, CommandEntry.plain.injEq] at heq
        obtain ⟨h1, h2⟩ := heq
        subst h1
        subst h2
        exact hp
      obtain ⟨ha, hb, hc⟩ := ih hrest st hinv hnd
      refine ⟨ha, hb, fun p => ?_⟩
      rw [hc p]
      simp only [List.map_cons, List.mem_cons]
      constructor
      · rintro (h | h)
        · exact Or.inl h
        · exact Or.inr (Or.inr h)
      · rintro (h | h | h)
        · exact Or.inl h
        · subst h
          exact Or.inl hpair
        · exact Or.inr h
    · have hstep : execute_row_commands row (CommandEntry.plain c :: rest) st =
          execute_row_commands row rest
            (st.1 ++ [(row.site, CommandEntry.plain c)], st.2 ++ [(row.site, c)]) := by
        simp only [execute_row_commands, List.foldl_cons, if_neg hmem]
      rw [hstep]
      have hpairnot : (row.site, c) ∉ st.2 := by
        intro hin
        exact hmem (by rw [hinv]; exact List.mem_map.mpr ⟨(row.site, c), hin, rfl⟩)
      have hinv2 : (st.1 ++ [(row.site, CommandEntry.plain c)], st.2 ++ [(row.site, c)]).1 =
          (st.1 ++ [(row.site, CommandEntry.plain c)],
            st.2 ++ [(row.site, c)]).2.map (fun p => (p.1, CommandEntry.plain p.2)) := by
        simp [hinv]
      have hnd2 : (st.1 ++ [(row.site, CommandEntry.plain c)],
          st.2 ++ [(row.site, c)]).2.Nodup := by
        show (st.2 ++ [(row.site, c)]).Nodup
        rw [List.nodup_append_comm]
        exact List.nodup_cons.mpr ⟨hpairnot, hnd⟩
      obtain ⟨ha, hb, hc⟩ := ih hrest
        (st.1 ++ [(row.site, CommandEntry.plain c)], st.2 ++ [(row.site, c)]) hinv2 hnd2
      refine ⟨ha, hb, fun p => ?_⟩
      rw [hc p]
      simp only [List.mem_append, List.mem_cons, List.map_cons, List.not_mem_nil, or_false,
        entry_pair]
      tauto

/-- The row loop of `do_actions` under all-plain command entries: the trace
stays duplicate-free and collects exactly the produced `(site, command)`
pairs. -/
theorem action_rows_loop_plain (core_command_of : Nat → ActionRow → List CommandEntry)
    (hplain : ∀ nr row ce, ce ∈ core_command_of nr row → ∃ c, ce = CommandEntry.plain c)
    (rows : List ActionRow) :
    ∀ (nr : Nat) (st : List (Option String × CommandEntry) × List (Option String × String)),
      st.1 = st.2.map (fun p => (p.1, CommandEntry.plain p.2)) → st.2.Nodup →
      ((action_rows_loop core_command_of nr rows st).1 =
          (action_rows_loop core_command_of nr rows st).2.map
            (fun p => (p.1, CommandEntry.plain p.2))
        ∧ (action_rows_loop core_command_of nr rows st).2.Nodup
        ∧ (∀ p, p ∈ (action_rows_loop core_command_of nr rows st).2 ↔
            p ∈ st.2 ∨ p ∈ produced_pairs core_command_of nr rows)) := by
  induction rows with
  | nil =>
    intro nr st hinv hnd
    refine ⟨hinv, hnd, fun p => ?_⟩
    simp [action_rows_loop, produced_pairs]
  | cons row rest ih =>
    intro nr st hinv hnd
    obtain ⟨ha, hb, hc⟩ := execute_row_commands_plain row (core_command_of nr row)
      (fun ce h => hplain nr row ce h) st hinv hnd
    obtain ⟨ha2, hb2, hc2⟩ := ih (nr + 1) _ ha hb
    have hstep : action_rows_loop core_command_of nr (row :: rest) st =
        action_rows_loop core_command_of (nr + 1) rest
          (execute_row_commands row (core_command_of nr row) st) := rfl
    rw [hstep]
    refine ⟨ha2, hb2, fun p => ?_⟩
    rw [hc2 p, hc p, produced_pairs]
    simp only [List.mem_append]
    tauto

/-- C6 (amended): `do_actions` executes nothing and returns `False` when the
user lacks `general.act`, when no rows are selected, or when the
confirmation is declined.  Otherwise it iterates over all action rows and
returns `True`; a command entry is skipped when the pair (row's site, entry)
was recorded before, and after execution the pair (effective site, entry) is
recorded — so for plain (non-tuple) command entries every distinct
`(site, command)` pair is executed exactly once: the trace is duplicate-free
and holds exactly the produced pairs. -/
theorem do_actions_spec (may_act confirmed : Bool) (action_rows : List ActionRow)
    (core_command_of : Nat → ActionRow → List CommandEntry)
    (hplain : ∀ nr row ce, ce ∈ core_command_of nr row → ∃ c, ce = CommandEntry.plain c) :
    (may_act = false → do_actions may_act action_rows confirmed core_command_of = (false, []))
    ∧ (action_rows = [] →
        do_actions may_act action_rows confirmed core_command_of = (false, []))
    ∧ (confirmed = false →
        do_actions may_act action_rows confirmed core_command_of = (false, []))
    ∧ (may_act = true → action_rows ≠ [] → confirmed = true →
        (do_actions may_act action_rows confirmed core_command_of).1 = true
        ∧ (do_actions may_act action_rows confirmed core_command_of).2.Nodup
        ∧ (∀ p, p ∈ (do_actions may_act action_rows confirmed core_command_of).2 ↔
            p ∈ produced_pairs core_command_of 0 action_rows)) := by
  refine ⟨?_, ?_, ?_, ?_⟩
  · intro h
    subst h
    rfl
  · intro h
    subst h
    cases may_act <;> simp [do_actions]
  · intro h
    subst h
    by_cases hr : action_rows = [] <;> cases may_act <;> simp [do_actions, hr]
  · intro h1 h2 h3
    subst h1
    subst h3
    have hdef : do_actions true action_rows true core_command_of =
        (true, (action_rows_loop core_command_of 0 action_rows ([], [])).2) := by
      simp [do_actions, h2]
    obtain ⟨ha, hb, hc⟩ := action_rows_loop_plain core_command_of hplain action_rows 0 ([], [])
      rfl List.nodup_nil
    rw [hdef]
    refine ⟨rfl, hb, fun p => ?_⟩
    show p ∈ (action_rows_loop core_command_of 0 action_rows ([], [])).2 ↔ _
    rw [hc p]
    simp

/-- Counterexample for C6 as stated: with a tuple command entry whose
embedded site (`"s2"`) differs from the row's site (`"s1"`), the
deduplication checks the pair under the row's site but records it under the
entry's site, so the same `(site, command)` pair is executed twice. -/
theorem do_actions_counterexample :
    (do_actions true [⟨some "s1", 0⟩] true
        (fun _ _ => [CommandEntry.sited (some "s2") "RESCHEDULE",
          CommandEntry.sited (some "s2") "RESCHEDULE"])).2 =
      [(some "s2", "RESCHEDULE"), (some "s2", "RESCHEDULE")]
    ∧ ¬ (do_actions true [⟨some "s1", 0⟩] true
        (fun _ _ => [CommandEntry.sited (some "s2") "RESCHEDULE",
          CommandEntry.sited (some "s2") "RESCHEDULE"])).2.Nodup := by
  constructor
  · rfl
  · decide

/-- Witness for C6 at a concrete input: two rows on the same site, each
producing the same plain command: the run succeeds and the trace is
duplicate-free (the second row's command is skipped). -/
theorem do_actions_spec_witness :
    (do_actions true [⟨some "s", 0⟩, ⟨some "s", 1⟩] true
        (fun _ _ => [CommandEntry.plain "CMD"])).1 = true
    ∧ (do_actions true [⟨some "s", 0⟩, ⟨some "s", 1⟩] true
        (fun _ _ => [CommandEntry.plain "CMD"])).2.Nodup := by
  obtain ⟨h1, h2, h3⟩ := (do_actions_spec true true [⟨some "s", 0⟩, ⟨some "s", 1⟩]
    (fun _ _ => [CommandEntry.plain "CMD"])
    (fun nr row ce hce => ⟨"CMD", by simpa using hce⟩)).2.2.2 rfl (by simp) rfl
  exact ⟨h1, h2⟩


/-! ### Theorems for C7 -/

/-- `mark_flat` yields one mark per condition. -/
theorem mark_flat_length (conds : List Bool) : ∀ am, (mark_flat am conds).length = conds.length := by
  induction conds with
  | nil => intro am; rfl
  | cons c rest ih => intro am; cases c <;> cases am <;> simp [mark_flat, ih]

/-- `mark_flat` splits over appended condition lists,  threading the
`already_matched` flag. -/
theorem mark_flat_append (l1 l2 : List Bool) :
    ∀ am, mark_flat am (l1 ++ l2) =
      mark_flat am l1 ++ mark_flat (am || l1.any (fun x => x)) l2 := by
  induction l1 with
  | nil => intro am; simp [mark_flat]
  | cons c rest ih => intro am; cases c <;> cases am <;> simp [mark_flat, ih]

/-- Generalised accumulator form of one rule's pattern loop. -/
theorem mark_rule_go (re_search : String → Bool) (rule : LogwatchRule)
    (ps : List LogwatchPattern) :
    ∀ (am : Bool) (acc : List MatchMark),
    List.foldl (mark_pattern_step re_search rule) (am, acc) ps
    = (am || (ps.map (fun p => rule.rule_matches && re_search p.pattern)).any (fun x => x),
       acc ++ mark_flat am (ps.map (fun p => rule.rule_matches && re_search p.pattern))) := by
  induction ps with
  | nil =>
    intro am acc
    simp [mark_flat]
  | cons p ps ih =>
    intro am acc
    by_cases hc : rule.rule_matches = true ∧ re_search p.pattern = true
    · have hcb : (rule.rule_matches && re_search p.pattern) = true := by
        rw [hc.1, hc.2]
        rfl
      cases am with
      | false =>
        have hf : mark_pattern_step re_search rule (false, acc) p
            = (true, acc ++ [MatchMark.first]) := by
          simp [mark_pattern_step, hc.1, hc.2]
        rw [List.foldl_cons, hf, ih]
        simp [mark_flat, hcb]
      | true =>
        have hf : mark_pattern_step re_search rule (true, acc) p
            = (true, acc ++ [MatchMark.subsequent]) := by
          simp [mark_pattern_step, hc.1, hc.2]
        rw [List.foldl_cons, hf, ih]
        simp [mark_flat, hcb]
    · have hcb : (rule.rule_matches && re_search p.pattern) = false := by
        cases hm : rule.rule_matches <;> cases hs : re_search p.pattern <;> simp_all
      have hf : mark_pattern_step re_search rule (am, acc) p
          = (am, acc ++ [MatchMark.nomatch]) := by
        simp [mark_pattern_step, hc]
      rw [List.foldl_cons, hf, ih]
      simp [mark_flat, hcb]

/-- `mark_rule` in closed form: the final flag and the flat marking of the
rule's conditions. -/
theorem mark_rule_eq (re_search : String → Bool) (rule : LogwatchRule) (am : Bool) :
    mark_rule re_search rule am
    = (am || (rule.patterns.map (fun p => rule.rule_matches && re_search p.pattern)).any
        (fun x => x),
       mark_flat am (rule.patterns.map (fun p => rule.rule_matches && re_search p.pattern))) := by
  rw [mark_rule, mark_rule_go]
  rw [List.nil_append]

/-- The rule loop of `_show_patterns`, flattened: marks in display order are
the flat marking of the flattened conditions; the final flag records whether
any condition matched. -/
theorem show_patterns_go_flatten (re_search : String → Bool) (rules : List LogwatchRule) :
    ∀ (am : Bool) (out : List (List MatchMark)),
    ((rules.foldl (show_patterns_step re_search) (am, out)).2).flatten
      = out.flatten ++ mark_flat am (match_conds re_search rules)
    ∧ (rules.foldl (show_patterns_step re_search) (am, out)).1
      = (am || (match_conds re_search rules).any (fun x => x)) := by
  induction rules with
  | nil =>
    intro am out
    simp [match_conds, mark_flat]
  | cons rule rules ih =>
    intro am out
    have hstep : show_patterns_step re_search (am, out) rule
        = ((mark_rule re_search rule am).1, out ++ [(mark_rule re_search rule am).2]) := rfl
    obtain ⟨ihf, iha⟩ := ih (mark_rule re_search rule am).1 (out ++ [(mark_rule re_search rule am).2])
    have hmc : match_conds re_search (rule :: rules) =
        rule.patterns.map (fun p => rule.rule_matches && re_search p.pattern) ++
          match_conds re_search rules := by
      simp [match_conds]
    constructor
    · rw [List.foldl_cons, hstep, ihf, mark_rule_eq, hmc, mark_flat_append]
      show (out ++ [mark_flat am _]).flatten ++ _ = _
      rw [List.flatten_append]
      simp [List.append_assoc]
    · rw [List.foldl_cons, hstep, iha, mark_rule_eq, hmc]
      simp [Bool.or_assoc]

/-- The rule loop of `_show_patterns` emits one mark list per rule, one mark
per pattern. -/
theorem show_patterns_go_shape (re_search : String → Bool) (rules : List LogwatchRule) :
    ∀ (am : Bool) (out : List (List MatchMark)),
    ((rules.foldl (show_patterns_step re_search) (am, out)).2).map List.length
      = out.map List.length ++ rules.map (fun r => r.patterns.length) := by
  induction rules with
  | nil =>
    intro am out
    simp
  | cons rule rules ih =>
    intro am out
    have hstep : show_patterns_step re_search (am, out) rule
        = ((mark_rule re_search rule am).1, out ++ [(mark_rule re_search rule am).2]) := rfl
    rw [List.foldl_cons, hstep, ih, mark_rule_eq]
    simp [mark_flat_length]

/-- Position-wise characterisation of `mark_flat`. -/
theorem mark_flat_getElem (conds : List Bool) :
    ∀ (am : Bool) (i : Nat), i < conds.length →
    (mark_flat am conds)[i]? =
      some (if conds[i]? = some true then
              (if (am || (conds.take i).any (fun x => x)) = false then MatchMark.first
               else MatchMark.subsequent)
            else MatchMark.nomatch) := by
  induction conds with
  | nil =>
    intro am i h
    exact absurd h (by simp)
  | cons c rest ih =>
    intro am i h
    cases i with
    | zero => cases c <;> cases am <;> simp [mark_flat]
    | succ i =>
      have h2 : i < rest.length := by simpa using h
      cases c <;> cases am <;>
        simp [mark_flat, ih _ i h2, Bool.or_assoc]

/-- Once something matched, `mark_flat` never emits `first` again. -/
theorem mark_flat_first_of_true (conds : List Bool) :
    (mark_flat true conds).count MatchMark.first = 0 := by
  induction conds with
  | nil => rfl
  | cons c rest ih => cases c <;> simp [mark_flat, ih, List.count_cons]

/-- `mark_flat` emits at most one `first` mark. -/
theorem mark_flat_first_count (conds : List Bool) :
    ∀ am, (mark_flat am conds).count MatchMark.first ≤ 1 := by
  induction conds with
  | nil => intro am; simp [mark_flat]
  | cons c rest ih =>
    intro am
    cases c with
    | false => simpa [mark_flat, List.count_cons] using ih am
    | true =>
      cases am with
      | false => simp [mark_flat, List.count_cons, mark_flat_first_of_true]
      | true => simpa [mark_flat, List.count_cons] using ih true

/-- C7: the pattern editor's match marking: one mark list per rule with one
mark per pattern; in flattened display order the marks are `mark_flat` of
the conditions "rule matches host/item and regex matches the text"; the
pattern at position `i` is marked `first` exactly when its condition holds
and no earlier condition holds, `subsequent` when its condition holds but an
earlier one does too, and `nomatch` (never a match) when its condition fails
— in particular at most one pattern is marked `first`. -/
theorem show_patterns_spec (re_search : String → Bool) (rules : List LogwatchRule) :
    ((show_patterns re_search rules).map List.length =
      rules.map (fun r => r.patterns.length))
    ∧ ((show_patterns re_search rules).flatten =
        mark_flat false (match_conds re_search rules))
    ∧ (∀ i, i < (match_conds re_search rules).length →
        ((show_patterns re_search rules).flatten)[i]? =
          some (if (match_conds re_search rules)[i]? = some true then
                  (if ((match_conds re_search rules).take i).any (fun x => x) = false
                   then MatchMark.first else MatchMark.subsequent)
                else MatchMark.nomatch))
    ∧ ((show_patterns re_search rules).flatten.count MatchMark.first ≤ 1) := by
  have hflat := (show_patterns_go_flatten re_search rules false []).1
  have hshape := show_patterns_go_shape re_search rules false []
  have hfl : (show_patterns re_search rules).flatten =
      mark_flat false (match_conds re_search rules) := by
    rw [show_patterns, hflat]
    simp
  refine ⟨?_, hfl, ?_, ?_⟩
  · rw [show_patterns, hshape]
    simp
  · intro i hi
    rw [hfl, mark_flat_getElem _ false i hi]
    simp
  · rw [hfl]
    exact mark_flat_first_count _ false

/-- Witness for C7 at a concrete input: three rules (matching, non-matching,
matching); the first matching pattern is marked `first`, the non-matching
rule's pattern `nomatch`, the later matching pattern `subsequent`. -/
theorem show_patterns_spec_witness :
    ((show_patterns (fun s => s == "a")
        [⟨true, [⟨0, "a", "c1"⟩, ⟨0, "b", "c2"⟩]⟩, ⟨false, [⟨0, "a", "c3"⟩]⟩,
          ⟨true, [⟨0, "a", "c4"⟩]⟩]).flatten)[3]? =
      some (if (match_conds (fun s => s == "a")
            [⟨true, [⟨0, "a", "c1"⟩, ⟨0, "b", "c2"⟩]⟩, ⟨false, [⟨0, "a", "c3"⟩]⟩,
              ⟨true, [⟨0, "a", "c4"⟩]⟩])[3]? = some true then
              (if ((match_conds (fun s => s == "a")
                  [⟨true, [⟨0, "a", "c1"⟩, ⟨0, "b", "c2"⟩]⟩, ⟨false, [⟨0, "a", "c3"⟩]⟩,
                    ⟨true, [⟨0, "a", "c4"⟩]⟩]).take 3).any (fun x => x) = false
               then MatchMark.first else MatchMark.subsequent)
            else MatchMark.nomatch) :=
  (show_patterns_spec (fun s => s == "a")
    [⟨true, [⟨0, "a", "c1"⟩, ⟨0, "b", "c2"⟩]⟩, ⟨false, [⟨0, "a", "c3"⟩]⟩,
      ⟨true, [⟨0, "a", "c4"⟩]⟩]).2.2.1 3 (by decide)


/-! ### Theorems for C2: dictionary lemmas -/

/-- A key outside the dict looks up to nothing. -/
theorem dget_none_of_not_mem {κ α : Type} [DecidableEq κ] :
    ∀ (m : List (κ × α)) (key : κ), key ∉ m.map Prod.fst → dget m key = none := by
  intro m
  induction m with
  | nil => intro key _; rfl
  | cons p m ih =>
    intro key h
    rcases p with ⟨k, v⟩
    simp only [List.map_cons, List.mem_cons] at h
    push_neg at h
    simp only [dget, if_neg (fun hh : k = key => h.1 hh.symm)]
    exact ih key h.2

/-- A key inside the dict looks up to some value. -/
theorem dget_some_of_mem {κ α : Type} [DecidableEq κ] :
    ∀ (m : List (κ × α)) (key : κ), key ∈ m.map Prod.fst → ∃ v, dget m key = some v := by
  intro m
  induction m with
  | nil => intro key h; exact absurd h (by simp)
  | cons p m ih =>
    intro key h
    rcases p with ⟨k, v⟩
    by_cases hk : k = key
    · exact ⟨v, by simp [dget, hk]⟩
    · simp only [List.map_cons, List.mem_cons] at h
      rcases h with h | h
      · exact absurd h.symm hk
      · obtain ⟨w, hw⟩ := ih key h
        exact ⟨w, by simp [dget, hk, hw]⟩

/-- Lookup after an in-place `dmodify`. -/
theorem dget_dmodify {κ α : Type} [DecidableEq κ] :
    ∀ (m : List (κ × α)) (key : κ) (f : α → α) (key2 : κ),
    dget (dmodify m key f) key2 = if key2 = key then (dget m key).map f else dget m key2 := by
  intro m
  induction m with
  | nil => intro key f key2; simp [dmodify, dget]
  | cons p m ih =>
    intro key f key2
    rcases p with ⟨k, v⟩
    have hhd : dmodify ((k, v) :: m) key f =
        (if k = key then (k, f v) else (k, v)) :: dmodify m key f := by
      simp [dmodify]
    rw [hhd]
    by_cases hk : k = key
    · rw [if_pos hk]
      subst hk
      by_cases h2 : key2 = k
      · subst h2
        simp [dget, ih]
      · have h3 : ¬ k = key2 := fun hh => h2 hh.symm
        simp [dget, ih, h2, h3]
    · rw [if_neg hk]
      by_cases h2 : key2 = key
      · subst h2
        simp [dget, ih, hk]
      · by_cases h3 : k = key2
        · subst h3
          simp [dget, ih, h2, hk]
        · simp [dget, ih, h2, h3, hk]

/-- Lookup after appending a single binding. -/
theorem dget_append_single {κ α : Type} [DecidableEq κ] :
    ∀ (m : List (κ × α)) (key : κ) (v : α) (key2 : κ),
    dget (m ++ [(key, v)]) key2 =
      if key2 = key then (if key2 ∈ m.map Prod.fst then dget m key2 else some v)
      else dget m key2 := by
  intro m
  induction m with
  | nil =>
    intro key v key2
    by_cases h : key2 = key
    · subst h
      simp [dget]
    · have h2 : ¬ key = key2 := fun hh => h hh.symm
      simp [dget, h, h2]
  | cons p m ih =>
    intro key v key2
    rcases p with ⟨k, a⟩
    rw [List.cons_append]
    by_cases hk : k = key2
    · subst hk
      by_cases h2 : k = key <;> simp [dget, h2]
    · have hne : key2 ≠ k := fun hh => hk hh.symm
      have hd : dget ((k, a) :: (m ++ [(key, v)])) key2 = dget (m ++ [(key, v)]) key2 := by
        simp [dget, hk]
      rw [hd, ih]
      have hd2 : dget ((k, a) :: m) key2 = dget m key2 := by
        simp [dget, hk]
      have hmem : (key2 ∈ List.map Prod.fst ((k, a) :: m)) ↔ key2 ∈ List.map Prod.fst m := by
        simp [List.map_cons, List.mem_cons, hne]
      by_cases h2 : key2 = key
      · rw [if_pos h2, if_pos h2]
        by_cases h3 : key2 ∈ List.map Prod.fst m
        · rw [if_pos h3, if_pos (hmem.mpr h3), hd2]
        · rw [if_neg h3, if_neg (fun hh => h3 (hmem.mp hh))]
      · rw [if_neg h2, if_neg h2, hd2]

/-- Lookup after a Python dict assignment: the assigned key now maps to the
assigned value, every other key is unchanged. -/
theorem dget_dinsert {κ α : Type} [DecidableEq κ] (m : List (κ × α)) (key : κ) (v : α)
    (key2 : κ) :
    dget (dinsert m key v) key2 = if key2 = key then some v else dget m key2 := by
  rw [dinsert]
  by_cases hmem : key ∈ m.map Prod.fst
  · rw [if_pos hmem]
    have hmod : m.map (fun p => if p.1 = key then (p.1, v) else p) =
        dmodify m key (fun _ => v) := rfl
    rw [hmod, dget_dmodify]
    by_cases h2 : key2 = key
    · obtain ⟨w, hw⟩ := dget_some_of_mem m key hmem
      simp [h2, hw]
    · simp [h2]
  · rw [if_neg hmem, dget_append_single]
    by_cases h2 : key2 = key
    · subst h2
      simp [hmem]
    · simp [h2]


/-! ### Theorems for C2: the grouping loop -/

/-- Folding slave rows into a run dict does not touch other join keys. -/
theorem dget_fold_dinsert_not_mem :
    ∀ (rs : List LSRow) (d : List (String × LSRow)) (sv : String),
    (∀ x ∈ rs, x.slave_value ≠ sv) →
    dget (rs.foldl (fun d x => dinsert d x.slave_value x) d) sv = dget d sv := by
  intro rs
  induction rs with
  | nil => intro d sv _; rfl
  | cons x rs ih =>
    intro d sv h
    rw [List.foldl_cons, ih _ sv (fun y hy => h y (List.mem_cons_of_mem _ hy)), dget_dinsert,
      if_neg (fun hh => (h x (List.mem_cons_self x rs)) hh.symm)]

/-- Folding slave rows with pairwise-distinct join keys into a run dict maps
each row's join key to that row. -/
theorem dget_fold_dinsert_mem :
    ∀ (rs : List LSRow) (d : List (String × LSRow)) (x : LSRow),
    x ∈ rs → rs.Pairwise (fun a b => a.slave_value ≠ b.slave_value) →
    dget (rs.foldl (fun d x => dinsert d x.slave_value x) d) x.slave_value = some x := by
  intro rs
  induction rs with
  | nil => intro d x h _; exact absurd h (by simp)
  | cons y rs ih =>
    intro d x hx hpw
    rw [List.foldl_cons]
    rcases List.mem_cons.mp hx with h | h
    · subst h
      have hall : ∀ z ∈ rs, z.slave_value ≠ x.slave_value := by
        intro z hz hh
        exact (List.rel_of_pairwise_cons hpw hz) hh.symm
      rw [dget_fold_dinsert_not_mem rs _ _ hall, dget_dinsert, if_pos rfl]
    · exact ih _ x h hpw.of_cons

/-- Keys with no slave row are untouched by the grouping loop. -/
theorem build_frame :
    ∀ (rows : List LSRow) (cur : Option (String × String))
      (per : List ((String × String) × List (String × LSRow))) (k : String × String),
    (∀ r ∈ rows, keyOf r ≠ k) →
    dget (build_per_master_entry rows cur per) k = dget per k := by
  intro rows
  induction rows with
  | nil => intro cur per k _; rfl
  | cons row rest ih =>
    intro cur per k h
    have hk : keyOf row ≠ k := h row (List.mem_cons_self row rest)
    have hrest : ∀ r ∈ rest, keyOf r ≠ k := fun r hr => h r (List.mem_cons_of_mem _ hr)
    simp only [build_per_master_entry]
    by_cases hc : some (keyOf row) = cur
    · rw [if_pos hc, ih _ _ k hrest, dget_dmodify, if_neg (fun hh => hk hh.symm)]
    · rw [if_neg hc, ih _ _ k hrest, dget_dinsert, if_neg (fun hh => hk hh.symm)]

/-- Processing a run of rows that all carry the current master key chains
their dict updates onto the stored entry. -/
theorem build_same_run (k : String × String) :
    ∀ (rs rest2 : List LSRow) (per : List ((String × String) × List (String × LSRow))),
    (∀ x ∈ rs, keyOf x = k) →
    build_per_master_entry (rs ++ rest2) (some k) per
    = build_per_master_entry rest2 (some k)
        (rs.foldl (fun per x => dmodify per k (fun d => dinsert d x.slave_value x)) per) := by
  intro rs
  induction rs with
  | nil => intro rest2 per _; rfl
  | cons x rs ih =>
    intro rest2 per hall
    have hx : keyOf x = k := hall x (List.mem_cons_self x rs)
    rw [List.cons_append]
    simp only [build_per_master_entry]
    rw [if_pos (by rw [hx]), hx, ih rest2 _ (fun y hy => hall y (List.mem_cons_of_mem _ hy)),
      List.foldl_cons]

/-- The dict accumulated for the current master key by a chain of in-place
updates. -/
theorem dget_foldl_dmodify (k : String × String) :
    ∀ (rs : List LSRow) (per : List ((String × String) × List (String × LSRow))),
    dget (rs.foldl (fun per x => dmodify per k (fun d => dinsert d x.slave_value x)) per) k
    = (dget per k).map (fun d => rs.foldl (fun d x => dinsert d x.slave_value x) d) := by
  intro rs
  induction rs with
  | nil =>
    intro per
    simp
  | cons x rs ih =>
    intro per
    rw [List.foldl_cons, ih, dget_dmodify, if_pos rfl, Option.map_map]
    rfl

/-- The grouping loop on grouped slave rows with per-key distinct join keys:
each slave row's master key looks up to a dict that maps the row's join key
to the row itself. -/
theorem build_grouped :
    ∀ (rows : List LSRow), GroupedRows rows →
    rows.Pairwise (fun a b => keyOf a = keyOf b → a.slave_value ≠ b.slave_value) →
    ∀ (cur : Option (String × String)) (per : List ((String × String) × List (String × LSRow))),
    (∀ r ∈ rows, some (keyOf r) ≠ cur) →
    ∀ r ∈ rows, ∃ d, dget (build_per_master_entry rows cur per) (keyOf r) = some d
      ∧ dget d r.slave_value = some r := by
  intro rows hg
  induction hg with
  | nil =>
    intro _ cur per _ r hr
    exact absurd hr (by simp)
  | run row run_rows rest hall hrest hgrest ih =>
    intro hnd cur per hcur r hr
    have hk : ¬ some (keyOf row) = cur := hcur row (List.mem_cons_self _ _)
    have hstep1 : build_per_master_entry (row :: run_rows ++ rest) cur per
        = build_per_master_entry (run_rows ++ rest) (some (keyOf row))
            (dinsert per (keyOf row) [(row.slave_value, row)]) := by
      simp only [build_per_master_entry]
      rw [if_neg hk]
      rfl
    have hstep2 := build_same_run (keyOf row) run_rows rest
      (dinsert per (keyOf row) [(row.slave_value, row)]) hall
    have hdict : dget (run_rows.foldl
          (fun per x => dmodify per (keyOf row) (fun d => dinsert d x.slave_value x))
          (dinsert per (keyOf row) [(row.slave_value, row)])) (keyOf row)
        = some (run_rows.foldl (fun d x => dinsert d x.slave_value x)
            [(row.slave_value, row)]) := by
      rw [dget_foldl_dmodify, dget_dinsert, if_pos rfl]
      rfl
    have hins : dinsert ([] : List (String × LSRow)) row.slave_value row
        = [(row.slave_value, row)] := by
      simp [dinsert]
    have heq : (row :: run_rows).foldl (fun d x => dinsert d x.slave_value x) []
        = run_rows.foldl (fun d x => dinsert d x.slave_value x) [(row.slave_value, row)] := by
      rw [List.foldl_cons, hins]
    have hpw : (row :: run_rows).Pairwise (fun a b => a.slave_value ≠ b.slave_value) := by
      have hsub : List.Sublist (row :: run_rows) (row :: run_rows ++ rest) :=
        List.Sublist.cons₂ row (List.sublist_append_left run_rows rest)
      have hpw0 := hnd.sublist hsub
      apply hpw0.imp_of_mem
      intro a b ha hb hR
      apply hR
      have hka : keyOf a = keyOf row := by
        rcases List.mem_cons.mp ha with h | h
        · rw [h]
        · exact hall a h
      have hkb : keyOf b = keyOf row := by
        rcases List.mem_cons.mp hb with h | h
        · rw [h]
        · exact hall b h
      rw [hka, hkb]
    rw [hstep1, hstep2]
    have hmem3 : r = row ∨ r ∈ run_rows ∨ r ∈ rest := by
      simpa [List.mem_cons, List.mem_append, or_assoc] using hr
    rcases hmem3 with hcase | hcase | hcase
    · subst hcase
      refine ⟨run_rows.foldl (fun d x => dinsert d x.slave_value x)
        [(r.slave_value, r)], ?_, ?_⟩
      · rw [build_frame rest (some (keyOf r)) _ (keyOf r) hrest]
        exact hdict
      · rw [← heq]
        exact dget_fold_dinsert_mem (r :: run_rows) [] r (List.mem_cons_self _ _) hpw
    · have hkr : keyOf r = keyOf row := hall r hcase
      refine ⟨run_rows.foldl (fun d x => dinsert d x.slave_value x)
        [(row.slave_value, row)], ?_, ?_⟩
      · rw [hkr, build_frame rest (some (keyOf row)) _ (keyOf row) hrest]
        exact hdict
      · rw [← heq]
        exact dget_fold_dinsert_mem (row :: run_rows) [] r (List.mem_cons_of_mem _ hcase) hpw
    · have hsubrest : List.Sublist rest (row :: run_rows ++ rest) :=
        List.Sublist.cons row (List.sublist_append_right run_rows rest)
      have hnd2 := hnd.sublist hsubrest
      have hcur2 : ∀ q ∈ rest, ¬ some (keyOf q) = some (keyOf row) := by
        intro q hq hh
        exact hrest q hq (Option.some.inj hh)
      exact ih hnd2 (some (keyOf row)) _ hcur2 r hcase


/-- C2 (amended): after `_do_table_join` returns, every master row carries a
`"JOIN"` entry; provided the join query's rows are grouped by
`(site, join master column)` — rows with equal keys contiguous — and the
join-key values of one master key's rows are distinct, each master row's
`"JOIN"` dict maps, for every slave row whose site and master-column value
equal the master row's, that row's join-key value to the row itself; a
master row for which no slave row matches gets an empty dict. -/
theorem do_table_join_spec (master_rows : List MasterRow) (query_rows : List LSRow)
    (hg : GroupedRows query_rows)
    (hnd : query_rows.Pairwise (fun a b => keyOf a = keyOf b → a.slave_value ≠ b.slave_value)) :
    ((_do_table_join master_rows query_rows).map Prod.fst = master_rows)
    ∧ (∀ p ∈ _do_table_join master_rows query_rows, ∀ r ∈ query_rows,
        keyOf r = (p.1.site, p.1.master_value) → dget p.2 r.slave_value = some r)
    ∧ (∀ p ∈ _do_table_join master_rows query_rows,
        (∀ r ∈ query_rows, keyOf r ≠ (p.1.site, p.1.master_value)) → p.2 = []) := by
  refine ⟨?_, ?_, ?_⟩
  · simp [_do_table_join, Function.comp_def]
  · intro p hp r hr hkey
    simp only [_do_table_join, List.mem_map] at hp
    obtain ⟨m, hm, rfl⟩ := hp
    obtain ⟨d, hd1, hd2⟩ := build_grouped query_rows hg hnd none []
      (fun q _ => by simp) r hr
    have hkey2 : keyOf r = (m.site, m.master_value) := hkey
    show dget ((dget (build_per_master_entry query_rows none [])
      (m.site, m.master_value)).getD []) r.slave_value = some r
    rw [← hkey2, hd1]
    exact hd2
  · intro p hp hnone
    simp only [_do_table_join, List.mem_map] at hp
    obtain ⟨m, hm, rfl⟩ := hp
    show (dget (build_per_master_entry query_rows none [])
      (m.site, m.master_value)).getD [] = []
    rw [build_frame query_rows none [] (m.site, m.master_value) (fun r hr => hnone r hr)]
    rfl

/-- Counterexample for C2 as stated: slave rows for master key
`("s", "h1")` arrive in two runs separated by another key; the second run
replaces the first run's dict, so the first run's slave row (join key
`"a"`) is missing from the master row's `"JOIN"` entry — the claim demands
it be mapped. -/
theorem do_table_join_counterexample :
    ¬ (∀ p ∈ _do_table_join [⟨"s", "h1", 0⟩]
          [⟨"s", "h1", "a", 1⟩, ⟨"s", "h2", "b", 2⟩, ⟨"s", "h1", "c", 3⟩],
        ∀ r ∈ [⟨"s", "h1", "a", 1⟩, ⟨"s", "h2", "b", 2⟩, (⟨"s", "h1", "c", 3⟩ : LSRow)],
        keyOf r = (p.1.site, p.1.master_value) → dget p.2 r.slave_value = some r) := by
  decide

/-- Witness for C2 at a concrete grouped input: one master row, two slave
rows of its key followed by one of a different key. -/
theorem do_table_join_spec_witness :
    (_do_table_join [⟨"s", "h1", 0⟩]
        [⟨"s", "h1", "a", 1⟩, ⟨"s", "h1", "c", 3⟩, ⟨"s", "h2", "b", 2⟩]).map Prod.fst
      = [⟨"s", "h1", 0⟩] :=
  (do_table_join_spec [⟨"s", "h1", 0⟩]
    [⟨"s", "h1", "a", 1⟩, ⟨"s", "h1", "c", 3⟩, ⟨"s", "h2", "b", 2⟩]
    (GroupedRows.run ⟨"s", "h1", "a", 1⟩ [⟨"s", "h1", "c", 3⟩] [⟨"s", "h2", "b", 2⟩]
      (by decide) (by decide)
      (GroupedRows.run ⟨"s", "h2", "b", 2⟩ [] [] (by decide) (by decide) GroupedRows.nil))
    (by decide)).1

end Checkmk
